import Mathlib

/-!
Verification development for the TOS-Searcher detection core
(`src/tos_searcher/analyzer/{patterns.py, scorer.py, detector.py}`).

The Python regular-expression rules are embedded as a small regex AST
together with a backtracking matcher that mirrors the `re` module's
behaviour on the constructs the rule tables use: ordered alternation
(leftmost alternative preferred), greedy and lazy repetition, bounded
counted repetition, character classes (with the ASCII portion of the
Python classes, which covers every text the rules and claims touch),
case-insensitive literal matching (the `(?i)` flag every rule carries),
word boundaries, and `finditer`'s scan-from-the-left, non-overlapping
enumeration of matches.  Python floats are modelled as rationals: the
score combinators (`sum`, `max`, `min`, `round(x, 3)`) are exact on the
tabled weights, and no claim proved below sits at a binary-rounding
boundary.  `round(x, 3)` is modelled as round-half-up at scale 1000;
the claims never evaluate it at a half-tie.
-/

namespace TOS

set_option maxRecDepth 131072

/-- Character-class tags for the subset of Python regex classes the
rule tables use: `\s`, `\S`, `\d` and `.` (which excludes newline). -/
inductive CKind where
  | white
  | nonwhite
  | digit
  | dot
deriving Repr, DecidableEq

/-- ASCII whitespace recognised by Python's `\s` and `str.strip()`. -/
def pyWS (c : Char) : Bool :=
  c = ' ' || c = Char.ofNat 9 || c = Char.ofNat 10 || c = Char.ofNat 13 ||
  c = Char.ofNat 11 || c = Char.ofNat 12

/-- Python word character (`\w`), ASCII portion: letters, digits, underscore. -/
def isWordChar (c : Char) : Bool :=
  c.isAlphanum || c = '_'

def clsMatch : CKind → Char → Bool
  | .white, c => pyWS c
  | .nonwhite, c => !pyWS c
  | .digit, c => c.isDigit
  | .dot, c => c ≠ Char.ofNat 10

/-- Regex AST covering the constructs used by the rule tables. -/
inductive Re where
  | eps : Re
  | wb : Re
  | ch (c : Char) : Re
  | oneOf (cs : List Char) : Re
  | cls (k : CKind) : Re
  | seq (a b : Re) : Re
  | alt (a b : Re) : Re
  | star (a : Re) : Re
  | lazyStar (a : Re) : Re
deriving Repr

def wordO : Option Char → Bool
  | none => false
  | some c => isWordChar c

/-- `\b`: exactly one side of the position is a word character. -/
def wbHolds (prev : Option Char) (s : List Char) : Bool :=
  wordO prev != wordO s.head?

/-- Node count of a regex, used to bound the matcher's call depth. -/
def reSize : Re → Nat
  | .eps => 1
  | .wb => 1
  | .ch _ => 1
  | .oneOf _ => 1
  | .cls _ => 1
  | .seq a b => reSize a + reSize b + 1
  | .alt a b => reSize a + reSize b + 1
  | .star a => reSize a + 1
  | .lazyStar a => reSize a + 1

/-- Backtracking matcher in continuation-passing style.  The
continuation receives the character preceding the rest of the input
(for `\b`) and the unconsumed suffix; the first success in Python's
backtracking priority order wins.  Recursion is structural on a fuel
that drops by one per nesting level and per `star`/`lazyStar`
iteration; iterations must consume input (every starred body in the
rule tables does), so `reSize r + input length + 1` fuel always
reaches the same result the unbounded backtracker would. -/
def reM : Nat → Re → Option Char → List Char →
    (Option Char → List Char → Option (List Char)) → Option (List Char)
  | 0, _, _, _, _ => none
  | fuel + 1, r, prev, s, k =>
    match r with
    | .eps => k prev s
    | .wb => if wbHolds prev s then k prev s else none
    | .ch c =>
      match s with
      | [] => none
      | a :: t => if a.toLower = c.toLower then k (some a) t else none
    | .oneOf cs =>
      match s with
      | [] => none
      | a :: t => if cs.any (fun c => a.toLower = c.toLower) then k (some a) t else none
    | .cls ck =>
      match s with
      | [] => none
      | a :: t => if clsMatch ck a then k (some a) t else none
    | .seq a b => reM fuel a prev s (fun p t => reM fuel b p t k)
    | .alt a b =>
      match reM fuel a prev s k with
      | some res => some res
      | none => reM fuel b prev s k
    | .star a =>
      match reM fuel a prev s
          (fun p t => if t.length < s.length then reM fuel (.star a) p t k else none) with
      | some res => some res
      | none => k prev s
    | .lazyStar a =>
      match k prev s with
      | some res => some res
      | none =>
        reM fuel a prev s
          (fun p t => if t.length < s.length then reM fuel (.lazyStar a) p t k else none)

/-- Length of the match the engine prefers when anchored at the current
position (`none` when no match starts here). -/
def reSearchHere (fuel : Nat) (r : Re) (prev : Option Char) (s : List Char) : Option Nat :=
  match reM fuel r prev s (fun _ t => some t) with
  | some t => some (s.length - t.length)
  | none => none

/-- `finditer`: scan left to right, emit each leftmost match as a
`[start, end)` span, resume after the match (one character further on a
zero-width match). -/
def findIterAux (r : Re) (sfuel : Nat) : Nat → Option Char → Nat → List Char → List (Nat × Nat)
  | 0, _, _, _ => []
  | fuel + 1, prev, pos, rest =>
    match reSearchHere sfuel r prev rest with
    | some n =>
      if n = 0 then
        (pos, pos) ::
          (match rest with
           | [] => []
           | c :: t => findIterAux r sfuel fuel (some c) (pos + 1) t)
      else
        (pos, pos + n) :: findIterAux r sfuel fuel (rest.take n).getLast? (pos + n) (rest.drop n)
    | none =>
      match rest with
      | [] => []
      | c :: t => findIterAux r sfuel fuel (some c) (pos + 1) t

def findIter (r : Re) (text : String) : List (Nat × Nat) :=
  findIterAux r (reSize r + text.data.length + 1) (text.data.length + 1) none 0 text.data

/-- `pattern.search(text)` existence check. -/
def reSearch (r : Re) (text : String) : Bool :=
  !(findIter r text).isEmpty

/-- Python slice `text[s:e]` (offsets are code points, as in `re` spans). -/
def sliceStr (text : String) (s e : Nat) : String :=
  ⟨(text.data.drop s).take (e - s)⟩

/- Builders for the concrete rule regexes. -/

def rcat (l : List Re) : Re := l.foldr Re.seq Re.eps

def rstr (s : String) : Re := rcat (s.data.map Re.ch)

def ralts : List Re → Re
  | [] => Re.eps
  | [r] => r
  | r :: rest => Re.alt r (ralts rest)

def rplus (r : Re) : Re := Re.seq r (Re.star r)

def ropt (r : Re) : Re := Re.alt r Re.eps

/-- Greedy `r{0,n}`. -/
def rupTo (r : Re) : Nat → Re
  | 0 => Re.eps
  | n + 1 => Re.alt (Re.seq r (rupTo r n)) Re.eps

def wsP : Re := rplus (Re.cls .white)
def wsS : Re := Re.star (Re.cls .white)
def dotUp (n : Nat) : Re := rupTo (Re.cls .dot) n

/-! The rule tables of `patterns.py`, rule by rule.  Apostrophe and the
right single quote in `read_this_far` are written by code point. -/

def re_read_this_far : Re := rcat
  [rstr "if", wsP, rstr "you", ropt (Re.oneOf [Char.ofNat 39, Char.ofNat 8217]),
   Re.ch 'v', ropt (Re.ch 'e'), wsP, rstr "read", wsP, rstr "this", wsP, rstr "far"]

def re_first_person_to : Re := rcat
  [rstr "first", wsP, rstr "person", wsP, rstr "to", wsP,
   ralts [rstr "read", rstr "find", rstr "notice", rstr "discover",
          rstr "email", rstr "contact", rstr "call", rstr "respond"]]

def re_hidden_reward : Re := rcat
  [rstr "hidden", wsP,
   ralts [rstr "prize", rstr "reward", rstr "contest", rstr "message",
          rstr "bonus", rcat [rstr "easter", wsP, rstr "egg"], rstr "offer"]]

def re_congratulations_found : Re := rcat
  [rstr "congratulations", Re.lazyStar (Re.cls .dot), rstr "you", wsP,
   ralts [rstr "found", rstr "discovered",
          rcat [rstr "are", wsP, rstr "one", wsP, rstr "of"],
          rcat [rstr "actually", wsP, rstr "read"]]]

def re_claim_instruction : Re := rcat
  [ralts [rstr "email", rstr "call", rstr "contact", rstr "write"], wsP,
   ralts [rstr "us", rstr "to"], wsP, dotUp 80,
   ropt (rcat [rstr "to", wsP]),
   ralts [rstr "claim", rstr "win", rstr "receive", rstr "collect", rstr "get"], wsP,
   dotUp 30,
   ralts [rstr "prize", rstr "reward", rstr "gift", rstr "bonus", rstr "money", rstr "card"]]

def re_email_to_win : Re := rcat
  [rstr "email", wsP, rstr "us", wsP, rstr "at", wsP,
   rplus (Re.cls .nonwhite), Re.ch '@', rplus (Re.cls .nonwhite), dotUp 100,
   ralts [rstr "prize", rstr "reward", rstr "win", rstr "gift", rstr "bonus"]]

def re_dollar_prize : Re := rcat
  [Re.ch '$', ropt (Re.cls .white), Re.cls .digit, rupTo (Re.cls .digit) 2,
   Re.star (rcat [Re.ch ',', Re.cls .digit, Re.cls .digit, Re.cls .digit]),
   ropt (rcat [Re.ch '.', Re.cls .digit, Re.cls .digit]), wsS,
   ralts [rstr "prize", rstr "reward", rcat [rstr "gift", wsS, rstr "card"],
          rstr "bonus", rcat [rstr "cash", wsS, rstr "prize"]]]

def re_few_who_read : Re := rcat
  [ralts [rcat [rstr "one", wsP, rstr "of", wsP, rstr "the", wsP,
                ropt (rcat [rstr "very", wsP]), rstr "few"],
          rcat [rstr "rare", wsP, rstr "person"],
          rcat [rstr "actually", wsP, rstr "read", ropt (ralts [rstr "s", rstr "ing"])]],
   wsP, dotUp 50,
   ralts [rstr "terms", rstr "policy", rstr "agreement", rstr "contract",
          rcat [rstr "fine", wsP, rstr "print"], rstr "document"]]

def re_contest_words : Re := rcat
  [Re.wb, ralts [rstr "sweepstakes", rstr "giveaway", rstr "raffle",
                 rstr "drawing", rstr "jackpot"], Re.wb]

def re_winner_language : Re := ralts
  [rcat [rstr "you", wsP, ropt (rcat [rstr "could", wsP]), rstr "win"],
   rcat [rstr "winner", wsP, rstr "will", wsP, ropt (rcat [rstr "be", wsP]),
         ralts [rstr "selected", rstr "chosen", rstr "notified"]],
   rcat [rstr "eligible", wsP, rstr "to", wsP, rstr "win"],
   rcat [rstr "chance", wsP, rstr "to", wsP, rstr "win"]]

def re_reward_mention : Re := rcat
  [Re.wb, ralts [rstr "prize", rstr "reward", rstr "bonus",
                 rcat [rstr "gift", wsS, rstr "card"],
                 rcat [rstr "free", wsP,
                       ralts [rstr "product", rstr "service",
                              rstr "subscription", rstr "item"]]], Re.wb]

def re_easter_egg_mention : Re := rcat
  [Re.wb, ralts [rcat [rstr "easter", wsP, rstr "egg"],
                 rcat [rstr "secret", wsP, rstr "message"],
                 rcat [rstr "buried", wsP, rstr "in"]], Re.wb]

def re_urgency_scarcity : Re := ralts
  [rcat [rstr "limited", wsP, ralts [rstr "time", rstr "offer"]],
   rcat [rstr "act", wsP, ralts [rstr "now", rstr "fast", rstr "quickly"]],
   rcat [rstr "first", wsP, rplus (Re.cls .digit), wsP,
         ralts [rstr "people", rstr "readers", rstr "customers"]]]

/-- `PatternMatch` dataclass. -/
structure PatternMatch where
  pattern_name : String
  category : String
  matched_text : String
  start : Nat
  «end» : Nat
  weight : ℚ
deriving Repr, DecidableEq

/-- `PRIZE_PATTERNS`: `(name, category, regex, weight)`, declaration order. -/
def PRIZE_PATTERNS : List (String × String × Re × ℚ) :=
  [("read_this_far", "strong", re_read_this_far, 0.8),
   ("first_person_to", "strong", re_first_person_to, 0.7),
   ("hidden_reward", "strong", re_hidden_reward, 0.7),
   ("congratulations_found", "strong", re_congratulations_found, 0.8),
   ("claim_instruction", "strong", re_claim_instruction, 0.7),
   ("email_to_win", "strong", re_email_to_win, 0.8),
   ("dollar_prize", "strong", re_dollar_prize, 0.7),
   ("few_who_read", "strong", re_few_who_read, 0.8),
   ("contest_words", "medium", re_contest_words, 0.3),
   ("winner_language", "medium", re_winner_language, 0.3),
   ("reward_mention", "medium", re_reward_mention, 0.2),
   ("easter_egg_mention", "weak", re_easter_egg_mention, 0.1),
   ("urgency_scarcity", "weak", re_urgency_scarcity, 0.1)]

def re_official_rules : Re := ralts
  [rcat [rstr "official", wsP, rstr "rules"],
   rcat [rstr "no", wsP, rstr "purchase", wsP, rstr "necessary"],
   rcat [rstr "void", wsP, rstr "where", wsP, rstr "prohibited"]]

def re_sweepstakes_terms : Re := ralts
  [rcat [rstr "sweepstakes", wsP, ralts [rstr "rules", rstr "terms", rstr "conditions"]],
   rcat [rstr "contest", wsP, rstr "rules"],
   rcat [rstr "odds", wsP, rstr "of", wsP, rstr "winning"],
   rcat [rstr "eligibility", wsP, rstr "requirements"]]

def re_legal_boilerplate : Re := ralts
  [rcat [rstr "this", wsP, rstr "promotion", wsP, rstr "is", wsP,
         rstr "sponsored", wsP, rstr "by"],
   rcat [rstr "by", wsP, rstr "entering", Re.lazyStar (Re.cls .dot),
         rstr "you", wsP, rstr "agree", wsP, rstr "to"],
   rcat [rstr "open", wsP, rstr "to", wsP, ropt (rcat [rstr "legal", wsP]),
         rstr "residents"]]

/-- `NEGATIVE_PATTERNS`: `(name, regex, penalty)`, declaration order. -/
def NEGATIVE_PATTERNS : List (String × Re × ℚ) :=
  [("official_rules", re_official_rules, -0.4),
   ("sweepstakes_terms", re_sweepstakes_terms, -0.3),
   ("legal_boilerplate", re_legal_boilerplate, -0.3)]

/-- Matches of one rule in the text, in document order, as `finditer`
yields them; `m.group()` is the matched slice of the original text. -/
def ruleMatches (rule : String × String × Re × ℚ) (text : String) : List PatternMatch :=
  (findIter rule.2.2.1 text).map fun sp =>
    { pattern_name := rule.1
      category := rule.2.1
      matched_text := sliceStr text sp.1 sp.2
      start := sp.1
      «end» := sp.2
      weight := rule.2.2.2 }

/-- `find_all_matches`: outer loop over rules in declaration order,
inner loop over that rule's occurrences. -/
def find_all_matches (text : String) : List PatternMatch :=
  PRIZE_PATTERNS.flatMap fun rule => ruleMatches rule text

/-- `find_negative_matches`: one `(name, penalty)` per negative rule
whose pattern occurs anywhere in the text, declaration order. -/
def find_negative_matches (text : String) : List (String × ℚ) :=
  (NEGATIVE_PATTERNS.filter fun p => reSearch p.2.1 text).map fun p => (p.1, p.2.2)

/-! `scorer.py`.  The external linguistic-processing capability (spaCy)
is not part of the repository; following the spec's contract it is
modelled as an optional function producing token texts, sentence spans
and entity spans.  `none` is the capability-unavailable degraded mode. -/

/-- Sentence span as reported by the linguistic capability
(`sent.start_char`, `sent.end_char`, `sent.text`). -/
structure SentSpan where
  start_char : Nat
  end_char : Nat
  text : String

/-- Named entity as reported by the capability (`ent.label_`, `ent.start_char`). -/
structure EntSpan where
  label : String
  start_char : Nat

/-- The portion of a parsed document `score_context` consumes. -/
structure NLPDoc where
  tokens : List String
  sents : List SentSpan
  ents : List EntSpan

def LEGAL_INDICATORS : List String :=
  ["hereby", "whereas", "notwithstanding", "herein", "pursuant",
   "indemnify", "liability", "arbitration", "jurisdiction",
   "governing", "warranties", "disclaimers", "severability",
   "termination", "confidentiality", "intellectual"]

def ACTION_WORDS : List String :=
  ["email", "call", "contact", "visit", "send", "write", "reply"]

/-- Python substring containment `needle in hay`. -/
def strContains (hay needle : List Char) : Bool :=
  hay.tails.any fun t => needle.isPrefixOf t

/-- `NLPScorer.score_context(text, matches)`, with the scorer's `_nlp`
handle passed explicitly. -/
def score_context (nlp : Option (String → NLPDoc)) (text : String)
    (ms : List PatternMatch) : ℚ :=
  match nlp with
  | none => 0
  | some f =>
    if ms.isEmpty then 0
    else
      let doc := f ⟨text.data.take 100000⟩
      let legal_count := (doc.tokens.filter fun tok => LEGAL_INDICATORS.contains tok.toLower).length
      let score : ℚ := if 3 ≤ legal_count then 0.1 else 0
      let score := ms.foldl (fun sc m =>
        match doc.sents.find? (fun sent =>
            decide (sent.start_char ≤ m.start) && decide (m.start ≤ sent.end_char)) with
        | none => sc
        | some sent =>
          let sl := sent.text.toLower
          let sc := if ACTION_WORDS.any (fun w => strContains sl.data w.data) then sc + 0.1 else sc
          if strContains sl.data "if you".data then sc + 0.1 else sc) score
      let score := doc.ents.foldl (fun sc ent =>
        if ent.label = "MONEY" then
          if ms.any (fun m => ((ent.start_char : ℤ) - (m.start : ℤ)).natAbs < 300)
          then sc + 0.15 else sc
        else sc) score
      min score 0.4

/-! `detector.py`. -/

/-- One step of the `unique_weights` dict update: insert the name, or
take the max with the stored weight (insertion order preserved). -/
def upd : List (String × ℚ) → String → ℚ → List (String × ℚ)
  | [], n, w => [(n, w)]
  | (k, v) :: t, n, w =>
    if k = n then (k, max v w) :: t else (k, v) :: upd t n w

/-- The `unique_weights` dict after the grouping loop. -/
def uniqueWeights (ms : List PatternMatch) : List (String × ℚ) :=
  ms.foldl (fun acc m => upd acc m.pattern_name m.weight) []

/-- `sum(dict.values())`. -/
def sumVals (l : List (String × ℚ)) : ℚ :=
  l.foldl (fun a p => a + p.2) 0

/-- Base score: summed per-rule maxima, capped at 0.9. -/
def baseScore (ms : List PatternMatch) : ℚ :=
  min (sumVals (uniqueWeights ms)) 0.9

/-- The negative-penalty loop (each penalty is negative). -/
def negSum (text : String) : ℚ :=
  (find_negative_matches text).foldl (fun a p => a + p.2) 0

/-- `round(x, 3)` over the rational model, at scale 1000. -/
def round3 (q : ℚ) : ℚ :=
  (round (q * 1000) : ℤ) / 1000

/-- `max(matches, key=lambda m: m.weight)`: keeps the first element
whose key no later element strictly exceeds. -/
def maxByWeight : PatternMatch → List PatternMatch → PatternMatch
  | b, [] => b
  | b, m :: t => maxByWeight (if b.weight < m.weight then m else b) t

/-- `str.strip()` (ASCII whitespace). -/
def pyStrip (l : List Char) : List Char :=
  ((l.dropWhile pyWS).reverse.dropWhile pyWS).reverse

/-- `hay.find(needle)` as an option: index of the first occurrence
(`none` for Python's -1). -/
def findSubAux (needle : List Char) : List Char → Nat → Option Nat
  | [], i => if needle.isEmpty then some i else none
  | c :: t, i =>
    if needle.isPrefixOf (c :: t) then some i else findSubAux needle t (i + 1)

def findSub (needle hay : List Char) : Option Nat :=
  findSubAux needle hay 0

/-- `Detector._extract_context`.  Nat subtraction in `ctx_start`
implements Python's `max(0, start - window)`. -/
def extract_context (text : String) (s e : Nat) (window : Nat) : String :=
  let ctx_start := s - window
  let ctx_end := min text.data.length (e + window)
  let context := pyStrip ((text.data.drop ctx_start).take (ctx_end - ctx_start))
  if 0 < ctx_start then
    match findSub ['.', ' '] context with
    | some i => if 0 < i ∧ i < 100 then ⟨context.drop (i + 2)⟩ else ⟨context⟩
    | none => ⟨context⟩
  else ⟨context⟩

/-- `list({m.pattern_name for m in matches})`: the set of firing rule
identifiers.  Python's set-iteration order is unspecified; the model
fixes first-occurrence order (no claim depends on the order). -/
def dedupNames (ms : List PatternMatch) : List String :=
  ms.foldl (fun acc m => if acc.contains m.pattern_name then acc else acc ++ [m.pattern_name]) []

/-- `DetectionResult` dataclass. -/
structure DetectionResult where
  confidence : ℚ
  «matches» : List PatternMatch
  matched_text : String
  context : String
  pattern_names : List String
deriving Repr, DecidableEq

/-- A `Detector` owns its scorer's capability handle, fixed at
construction. -/
structure Detector where
  nlp : Option (String → NLPDoc)

/-- The combined clamped score of the pipeline on a given match list:
`max(0.0, min(1.0, base_score + penalties + nlp_bonus))`. -/
def scoreOf (d : Detector) (text : String) (ms : List PatternMatch) : ℚ :=
  max 0 (min 1 (baseScore ms + negSum text + score_context d.nlp text ms))

/-- The combined clamped score `analyze` tests against the 0.1 floor. -/
def finalScore (d : Detector) (text : String) : ℚ :=
  scoreOf d text (find_all_matches text)

/-- `Detector.analyze`. -/
def Detector.analyze (d : Detector) (text : String) : Option DetectionResult :=
  match find_all_matches text with
  | [] => none
  | m0 :: rest =>
    let final_score := scoreOf d text (m0 :: rest)
    if final_score < 0.1 then none
    else
      let best := maxByWeight m0 rest
      some { confidence := round3 final_score
             «matches» := m0 :: rest
             matched_text := best.matched_text
             context := extract_context text best.start best.«end» 300
             pattern_names := dedupNames (m0 :: rest) }

/-- A detector whose linguistic capability failed to load (the degraded
mode the spec's failure semantics prescribe). -/
def dNone : Detector := ⟨none⟩

/-- Maximum weight observed in `ms` for rule identifier `n` (0 when the
identifier never occurs; every tabled weight is positive). -/
def mwD (ms : List PatternMatch) (n : String) : ℚ :=
  ((ms.filter fun m => m.pattern_name == n).map PatternMatch.weight).foldl max 0

/-- First-match lookup in the association list modelling the dict. -/
def lookupV : List (String × ℚ) → String → Option ℚ
  | [], _ => none
  | (k, v) :: t, n => if k = n then some v else lookupV t n

/-! Concrete inputs and outputs used by witnesses and counterexamples. -/

def s1Text : String := "If you\u0027ve read this far, email us at prize@company.com"

def withNegText : String :=
  "OFFICIAL RULES: No purchase necessary to enter or win. hidden prize awaits you"

def withoutNegText : String := "hidden prize awaits you"

def lowText : String := "prize! no purchase necessary. odds of winning: low."

def fiveText : String := "sweepstakes sweepstakes sweepstakes sweepstakes sweepstakes"

def oneText : String := "sweepstakes"

def bestText : String := "hidden prize inside"

def ordText : String := "jackpot if you\u0027ve read this far"

def trimText : String := "One. Two HIDDEN end"

def mRead : PatternMatch :=
  ⟨"read_this_far", "strong", "If you\u0027ve read this far", 0, 23, 0.8⟩

def mPrizeS1 : PatternMatch := ⟨"reward_mention", "medium", "prize", 37, 42, 0.2⟩

def resS1 : DetectionResult :=
  ⟨0.9, [mRead, mPrizeS1], "If you\u0027ve read this far", s1Text,
   ["read_this_far", "reward_mention"]⟩

def mHidden : PatternMatch := ⟨"hidden_reward", "strong", "hidden prize", 0, 12, 0.7⟩

def mPrizeC4 : PatternMatch := ⟨"reward_mention", "medium", "prize", 7, 12, 0.2⟩

def resC4 : DetectionResult :=
  ⟨0.9, [mHidden, mPrizeC4], "hidden prize", bestText,
   ["hidden_reward", "reward_mention"]⟩

def mHiddenA : PatternMatch := ⟨"hidden_reward", "strong", "hidden prize", 55, 67, 0.7⟩

def mPrizeA : PatternMatch := ⟨"reward_mention", "medium", "prize", 62, 67, 0.2⟩

def resWithNeg : DetectionResult :=
  ⟨0.5, [mHiddenA, mPrizeA], "hidden prize", withNegText,
   ["hidden_reward", "reward_mention"]⟩

def resWithoutNeg : DetectionResult :=
  ⟨0.9, [mHidden, mPrizeC4], "hidden prize", withoutNegText,
   ["hidden_reward", "reward_mention"]⟩

def mPrizeLow : PatternMatch := ⟨"reward_mention", "medium", "prize", 0, 5, 0.2⟩

def mSw0 : PatternMatch := ⟨"contest_words", "medium", "sweepstakes", 0, 11, 0.3⟩

def mSw1 : PatternMatch := ⟨"contest_words", "medium", "sweepstakes", 12, 23, 0.3⟩

def mSw2 : PatternMatch := ⟨"contest_words", "medium", "sweepstakes", 24, 35, 0.3⟩

def mSw3 : PatternMatch := ⟨"contest_words", "medium", "sweepstakes", 36, 47, 0.3⟩

def mSw4 : PatternMatch := ⟨"contest_words", "medium", "sweepstakes", 48, 59, 0.3⟩

def mOrdRead : PatternMatch :=
  ⟨"read_this_far", "strong", "if you\u0027ve read this far", 8, 31, 0.8⟩

def mOrdJack : PatternMatch := ⟨"contest_words", "medium", "jackpot", 0, 7, 0.3⟩

/-! ### Generic fold and rounding lemmas -/

theorem foldl_add_eq {α : Type} (f : α → ℚ) :
    ∀ (l : List α) (c : ℚ), l.foldl (fun a x => a + f x) c = c + (l.map f).sum := by
  intro l
  induction l with
  | nil => simp
  | cons x t ih => intro c; simp [ih (c + f x)]; ring

theorem sumVals_eq (l : List (String × ℚ)) : sumVals l = (l.map Prod.snd).sum := by
  have := foldl_add_eq (Prod.snd : String × ℚ → ℚ) l 0
  simpa [sumVals] using this

theorem foldl_le_of_step {α : Type} (step : ℚ → α → ℚ)
    (h : ∀ a x, a ≤ step a x) : ∀ (l : List α) (c : ℚ), c ≤ List.foldl step c l := by
  intro l
  induction l with
  | nil => intro c; simp
  | cons x t ih => intro c; exact le_trans (h c x) (ih (step c x))

theorem round3_mono {q r : ℚ} (h : q ≤ r) : round3 q ≤ round3 r := by
  unfold round3
  have h1 : round (q * 1000) ≤ round (r * 1000) := by
    rw [round_eq, round_eq]
    exact Int.floor_le_floor (by linarith)
  have h2 : ((round (q * 1000) : ℤ) : ℚ) ≤ ((round (r * 1000) : ℤ) : ℚ) := by
    exact_mod_cast h1
  linarith

theorem round3_zero : round3 0 = 0 := by
  unfold round3; norm_num

theorem round3_one : round3 1 = 1 := by
  unfold round3
  norm_num

theorem round3_eval (q : ℚ) (a : ℤ) (h : q * 1000 = (a : ℚ)) (c : ℚ)
    (h2 : (a : ℚ) / 1000 = c) : round3 q = c := by
  unfold round3
  rw [h, round_intCast, h2]

theorem maxByWeight_cons_single (b m : PatternMatch) (h : ¬ b.weight < m.weight) :
    maxByWeight b [m] = b := by
  show maxByWeight (if b.weight < m.weight then m else b) [] = b
  rw [if_neg h]
  rfl

/-- Evaluation scheme for a successful `analyze` call: plug in the
computed match list, the computed score, and the rounded confidence. -/
theorem analyze_eval (d : Detector) (text : String) (m0 : PatternMatch)
    (rest : List PatternMatch) (hM : find_all_matches text = m0 :: rest) (q c : ℚ)
    (hq : scoreOf d text (m0 :: rest) = q) (hq1 : ¬ q < 0.1) (hc : round3 q = c) :
    d.analyze text = some
      { confidence := c
        «matches» := m0 :: rest
        matched_text := (maxByWeight m0 rest).matched_text
        context := extract_context text (maxByWeight m0 rest).start
          (maxByWeight m0 rest).«end» 300
        pattern_names := dedupNames (m0 :: rest) } := by
  unfold Detector.analyze
  rw [hM]
  show (if scoreOf d text (m0 :: rest) < 0.1 then none else
    some ({ confidence := round3 (scoreOf d text (m0 :: rest))
            «matches» := m0 :: rest
            matched_text := (maxByWeight m0 rest).matched_text
            context := extract_context text (maxByWeight m0 rest).start
              (maxByWeight m0 rest).«end» 300
            pattern_names := dedupNames (m0 :: rest) } : DetectionResult)) =
    some ({ confidence := c
            «matches» := m0 :: rest
            matched_text := (maxByWeight m0 rest).matched_text
            context := extract_context text (maxByWeight m0 rest).start
              (maxByWeight m0 rest).«end» 300
            pattern_names := dedupNames (m0 :: rest) } : DetectionResult)
  rw [hq, if_neg hq1, hc]

theorem analyze_s1 : dNone.analyze s1Text = some resS1 := by
  have h := analyze_eval dNone s1Text mRead [mPrizeS1] rfl 0.9 0.9
    (by show max 0 (min 1 (min ((0 : ℚ) + 0.8 + 0.2) 0.9 + 0 + 0)) = 0.9
        norm_num [min_def, max_def])
    (by norm_num)
    (round3_eval 0.9 900 (by norm_num) 0.9 (by norm_num))
  rw [h, maxByWeight_cons_single mRead mPrizeS1 (by show ¬ (0.8 : ℚ) < 0.2; norm_num)]
  rfl

theorem analyze_best : dNone.analyze bestText = some resC4 := by
  have h := analyze_eval dNone bestText mHidden [mPrizeC4] rfl 0.9 0.9
    (by show max 0 (min 1 (min ((0 : ℚ) + 0.7 + 0.2) 0.9 + 0 + 0)) = 0.9
        norm_num [min_def, max_def])
    (by norm_num)
    (round3_eval 0.9 900 (by norm_num) 0.9 (by norm_num))
  rw [h, maxByWeight_cons_single mHidden mPrizeC4 (by show ¬ (0.7 : ℚ) < 0.2; norm_num)]
  rfl

theorem analyze_withNeg : dNone.analyze withNegText = some resWithNeg := by
  have h := analyze_eval dNone withNegText mHiddenA [mPrizeA] rfl 0.5 0.5
    (by show max 0 (min 1 (min ((0 : ℚ) + 0.7 + 0.2) 0.9 + (0 + -0.4) + 0)) = 0.5
        norm_num [min_def, max_def])
    (by norm_num)
    (round3_eval 0.5 500 (by norm_num) 0.5 (by norm_num))
  rw [h, maxByWeight_cons_single mHiddenA mPrizeA (by show ¬ (0.7 : ℚ) < 0.2; norm_num)]
  rfl

theorem analyze_withoutNeg : dNone.analyze withoutNegText = some resWithoutNeg := by
  have h := analyze_eval dNone withoutNegText mHidden [mPrizeC4] rfl 0.9 0.9
    (by show max 0 (min 1 (min ((0 : ℚ) + 0.7 + 0.2) 0.9 + 0 + 0)) = 0.9
        norm_num [min_def, max_def])
    (by norm_num)
    (round3_eval 0.9 900 (by norm_num) 0.9 (by norm_num))
  rw [h, maxByWeight_cons_single mHidden mPrizeC4 (by show ¬ (0.7 : ℚ) < 0.2; norm_num)]
  rfl

theorem finalScore_low : finalScore dNone lowText = 0 := by
  rw [finalScore, show find_all_matches lowText = [mPrizeLow] from rfl]
  show max 0 (min 1 (min ((0 : ℚ) + 0.2) 0.9 + (0 + -0.4 + -0.3) + 0)) = 0
  norm_num [min_def, max_def]

/-! ### Claims -/

/-- C9: the analyzer accepts every string (it is a total function of
the input in this embedding, mirroring "never raises for input shape"),
and on the empty string no pattern can match, so `analyze` returns
nothing, whatever the state of the linguistic capability. -/
theorem claim9_empty_input :
    ∀ nlp : Option (String → NLPDoc),
      find_all_matches "" = [] ∧ (Detector.mk nlp).analyze "" = none := by
  intro nlp
  have h : find_all_matches "" = [] := by decide
  refine ⟨h, ?_⟩
  unfold Detector.analyze
  rw [h]

/-- C7: a text carrying "OFFICIAL RULES: No purchase necessary to enter
or win" next to a prize mention gets strictly lower confidence than the
same text with the negative phrase removed (capability-unavailable
scorer, the degraded mode in which the bonus is 0 for both texts). -/
theorem claim7_negative_lowers :
    (dNone.analyze withNegText = some resWithNeg ∧
      dNone.analyze withoutNegText = some resWithoutNeg) ∧
      resWithNeg.confidence < resWithoutNeg.confidence := by
  refine ⟨⟨analyze_withNeg, analyze_withoutNeg⟩, ?_⟩
  show (0.5 : ℚ) < 0.9
  norm_num

/-- C2: whenever the combined clamped score is strictly below 0.1,
`analyze` returns nothing (even when the match list is non-empty, as
the witness shows). -/
theorem claim2_floor_returns_none (d : Detector) (text : String)
    (h : finalScore d text < 0.1) : d.analyze text = none := by
  unfold Detector.analyze
  cases hm : find_all_matches text with
  | nil => rfl
  | cons m0 rest =>
    have hs : scoreOf d text (m0 :: rest) = finalScore d text := by
      rw [finalScore, hm]
    show (if scoreOf d text (m0 :: rest) < 0.1 then none else _) = none
    rw [hs, if_pos h]

/-- C2 witness: a text whose matches are non-empty but whose combined
score falls below the floor; `analyze` returns nothing on it. -/
theorem claim2_witness :
    (finalScore dNone lowText < 0.1 ∧ find_all_matches lowText ≠ []) ∧
      dNone.analyze lowText = none :=
  ⟨⟨by rw [finalScore_low]; norm_num,
    by rw [show find_all_matches lowText = [mPrizeLow] from rfl]; simp⟩,
   claim2_floor_returns_none dNone lowText (by rw [finalScore_low]; norm_num)⟩

/-! ### The `unique_weights` dict versus per-identifier maxima -/

theorem sumVals_cons (p : String × ℚ) (t : List (String × ℚ)) :
    sumVals (p :: t) = p.2 + sumVals t := by
  simp [sumVals_eq]

theorem lookupV_upd_self :
    ∀ (l : List (String × ℚ)) (n : String) (w : ℚ),
      lookupV (upd l n w) n =
        some (match lookupV l n with | some v => max v w | none => w) := by
  intro l
  induction l with
  | nil => intro n w; simp [upd, lookupV]
  | cons p t ih =>
    intro n w
    obtain ⟨k, v⟩ := p
    by_cases hk : k = n
    · subst hk
      simp [upd, lookupV]
    · simp only [upd, if_neg hk, lookupV, ih]

theorem lookupV_upd_other :
    ∀ (l : List (String × ℚ)) (n x : String) (w : ℚ), x ≠ n →
      lookupV (upd l n w) x = lookupV l x := by
  intro l
  induction l with
  | nil => intro n x w hx; simp [upd, lookupV, Ne.symm hx]
  | cons p t ih =>
    intro n x w hx
    obtain ⟨k, v⟩ := p
    by_cases hk : k = n
    · subst hk
      simp [upd, lookupV, Ne.symm hx]
    · by_cases hkx : k = x
      · subst hkx
        simp [upd, if_neg hk, lookupV]
      · simp [upd, if_neg hk, lookupV, hkx, ih n x w hx]

theorem sumVals_upd :
    ∀ (l : List (String × ℚ)) (n : String) (w : ℚ),
      sumVals (upd l n w) =
        sumVals l + (match lookupV l n with | some v => max v w - v | none => w) := by
  intro l
  induction l with
  | nil => intro n w; simp [upd, lookupV, sumVals_eq]
  | cons p t ih =>
    intro n w
    obtain ⟨k, v⟩ := p
    by_cases hk : k = n
    · subst hk
      simp only [upd, lookupV, if_true, eq_self_iff_true, sumVals_cons]
      ring
    · simp only [upd, if_neg hk, lookupV, if_neg hk, sumVals_cons, ih n w]
      ring

theorem uniqueWeights_append (ms : List PatternMatch) (m : PatternMatch) :
    uniqueWeights (ms ++ [m]) = upd (uniqueWeights ms) m.pattern_name m.weight := by
  simp [uniqueWeights, List.foldl_append]

theorem mwD_append (ms : List PatternMatch) (m : PatternMatch) (n : String) :
    mwD (ms ++ [m]) n =
      if n = m.pattern_name then max (mwD ms n) m.weight else mwD ms n := by
  by_cases hn : n = m.pattern_name
  · subst hn
    simp [mwD, List.filter_append, List.foldl_append]
  · have : (m.pattern_name == n) = false := by
      simp [Ne.symm hn]
    simp [mwD, List.filter_append, List.foldl_append, this, hn]

theorem mwD_not_mem (ms : List PatternMatch) (n : String)
    (h : n ∉ ms.map PatternMatch.pattern_name) : mwD ms n = 0 := by
  have hf : ms.filter (fun m => m.pattern_name == n) = [] := by
    rw [List.filter_eq_nil_iff]
    intro m hm
    simp only [beq_iff_eq]
    intro he
    exact h (List.mem_map.mpr ⟨m, hm, he⟩)
  simp [mwD, hf]

/-- The dict built by the grouping loop stores, per identifier, the
maximum weight seen for that identifier, and its values sum to the sum
of per-identifier maxima. -/
theorem uniqueWeights_invariant :
    ∀ ms : List PatternMatch, (∀ m ∈ ms, 0 ≤ m.weight) →
      (∀ n, lookupV (uniqueWeights ms) n =
          if n ∈ ms.map PatternMatch.pattern_name then some (mwD ms n) else none) ∧
        sumVals (uniqueWeights ms) =
          ∑ n ∈ (ms.map PatternMatch.pattern_name).toFinset, mwD ms n := by
  intro ms
  induction ms using List.reverseRecOn with
  | nil => intro _; constructor
           · intro n; simp [uniqueWeights, lookupV]
           · simp [uniqueWeights, sumVals_eq]
  | append_singleton ms m ih =>
    intro hw
    have hw' : ∀ x ∈ ms, 0 ≤ x.weight := fun x hx => hw x (List.mem_append_left _ hx)
    have hwm : 0 ≤ m.weight := hw m (List.mem_append_right _ (List.mem_singleton_self m))
    obtain ⟨ihL, ihS⟩ := ih hw'
    have hnames : (ms ++ [m]).map PatternMatch.pattern_name =
        ms.map PatternMatch.pattern_name ++ [m.pattern_name] := by simp
    constructor
    · intro n
      rw [uniqueWeights_append]
      by_cases hn : n = m.pattern_name
      · subst hn
        rw [lookupV_upd_self, ihL]
        have hmem' : m.pattern_name ∈ (ms ++ [m]).map PatternMatch.pattern_name := by
          simp
        rw [if_pos hmem', mwD_append, if_pos rfl]
        by_cases hmem : m.pattern_name ∈ ms.map PatternMatch.pattern_name
        · rw [if_pos hmem]
        · rw [if_neg hmem, mwD_not_mem ms _ hmem, max_eq_right hwm]
      · rw [lookupV_upd_other _ _ _ _ hn, ihL, mwD_append, if_neg hn]
        have : (n ∈ (ms ++ [m]).map PatternMatch.pattern_name) ↔
            n ∈ ms.map PatternMatch.pattern_name := by
          rw [hnames, List.mem_append, List.mem_singleton]
          exact or_iff_left hn
        by_cases hmem : n ∈ ms.map PatternMatch.pattern_name
        · rw [if_pos hmem, if_pos (this.mpr hmem)]
        · rw [if_neg hmem, if_neg (fun hc => hmem (this.mp hc))]
    · rw [uniqueWeights_append, sumVals_upd, ihS, ihL]
      have hS' : ((ms ++ [m]).map PatternMatch.pattern_name).toFinset =
          insert m.pattern_name (ms.map PatternMatch.pattern_name).toFinset := by
        rw [hnames, List.toFinset_append]
        simp [Finset.union_comm, Finset.insert_eq]
      rw [hS']
      by_cases hmem : m.pattern_name ∈ ms.map PatternMatch.pattern_name
      · have hmemF : m.pattern_name ∈ (ms.map PatternMatch.pattern_name).toFinset :=
          List.mem_toFinset.mpr hmem
        rw [if_pos hmem, Finset.insert_eq_self.mpr hmemF]
        have e1 : ∑ n ∈ (ms.map PatternMatch.pattern_name).toFinset, mwD (ms ++ [m]) n =
            mwD (ms ++ [m]) m.pattern_name +
              ∑ n ∈ (ms.map PatternMatch.pattern_name).toFinset.erase m.pattern_name,
                mwD (ms ++ [m]) n :=
          (Finset.add_sum_erase _ _ hmemF).symm
        have e2 : ∑ n ∈ (ms.map PatternMatch.pattern_name).toFinset, mwD ms n =
            mwD ms m.pattern_name +
              ∑ n ∈ (ms.map PatternMatch.pattern_name).toFinset.erase m.pattern_name,
                mwD ms n :=
          (Finset.add_sum_erase _ _ hmemF).symm
        have e3 : ∑ n ∈ (ms.map PatternMatch.pattern_name).toFinset.erase m.pattern_name,
            mwD (ms ++ [m]) n =
            ∑ n ∈ (ms.map PatternMatch.pattern_name).toFinset.erase m.pattern_name,
              mwD ms n := by
          refine Finset.sum_congr rfl ?_
          intro n hn
          rw [mwD_append, if_neg (Finset.ne_of_mem_erase hn)]
        have e4 : mwD (ms ++ [m]) m.pattern_name = max (mwD ms m.pattern_name) m.weight := by
          rw [mwD_append, if_pos rfl]
        rw [e1, e3, e4, e2]
        ring
      · have hmemF : m.pattern_name ∉ (ms.map PatternMatch.pattern_name).toFinset :=
          fun hc => hmem (List.mem_toFinset.mp hc)
        rw [if_neg hmem, Finset.sum_insert hmemF]
        have e3 : ∑ n ∈ (ms.map PatternMatch.pattern_name).toFinset, mwD (ms ++ [m]) n =
            ∑ n ∈ (ms.map PatternMatch.pattern_name).toFinset, mwD ms n := by
          refine Finset.sum_congr rfl ?_
          intro n hn
          rw [mwD_append, if_neg ?_]
          intro hc
          exact hmemF (hc ▸ hn)
        have e4 : mwD (ms ++ [m]) m.pattern_name = m.weight := by
          rw [mwD_append, if_pos rfl, mwD_not_mem ms _ hmem, max_eq_right hwm]
        rw [e3, e4]
        ring

/-- Every match produced by the rule tables carries a non-negative
(tabled) weight. -/
theorem find_all_weights_nonneg (text : String) :
    ∀ m ∈ find_all_matches text, 0 ≤ m.weight := by
  intro m hm
  unfold find_all_matches at hm
  rw [List.mem_flatMap] at hm
  obtain ⟨rule, hrule, hm2⟩ := hm
  unfold ruleMatches at hm2
  rw [List.mem_map] at hm2
  obtain ⟨sp, _, hsp⟩ := hm2
  have hwt : ∀ r ∈ PRIZE_PATTERNS, (0 : ℚ) ≤ r.2.2.2 := by
    intro r hr
    fin_cases hr <;> norm_num
  rw [← hsp]
  exact hwt rule hrule

/-- C1: the base score `analyze` computes is exactly the sum, over the
distinct rule identifiers among the matches, of the maximum weight seen
per identifier, capped at 0.9; in particular a rule occurring five
times contributes the same as the rule occurring once. -/
theorem claim1_base_score :
    (∀ text : String,
        baseScore (find_all_matches text) =
          min (∑ n ∈ ((find_all_matches text).map PatternMatch.pattern_name).toFinset,
            mwD (find_all_matches text) n) 0.9) ∧
      baseScore (find_all_matches fiveText) = baseScore (find_all_matches oneText) := by
  constructor
  · intro text
    rw [baseScore,
      (uniqueWeights_invariant (find_all_matches text) (find_all_weights_nonneg text)).2]
  · rw [show find_all_matches fiveText = [mSw0, mSw1, mSw2, mSw3, mSw4] from rfl,
      show find_all_matches oneText = [mSw0] from rfl]
    show min ((0 : ℚ) + max (max (max (max 0.3 0.3) 0.3) 0.3) 0.3) 0.9 =
      min ((0 : ℚ) + 0.3) 0.9
    norm_num [min_def, max_def]

/-- C5 counterexample: at `text = "ab. cdef"`, `start = 4`, `end = 5`,
`window = 2` the excerpt is left-truncated (`ctx_start = 2 > 0`) and
". " occurs at index 0 of the stripped excerpt — within its first 100
characters — yet the code performs no trim (its guard demands a
strictly positive index), returning ". cde" instead of the trimmed
"cde" the claim requires. -/
theorem scoreOf_nonneg (d : Detector) (text : String) (ms : List PatternMatch) :
    0 ≤ scoreOf d text ms :=
  le_max_left 0 _

theorem scoreOf_le_one (d : Detector) (text : String) (ms : List PatternMatch) :
    scoreOf d text ms ≤ 1 :=
  max_le (by norm_num) (min_le_left _ _)

/-- Shape of every successful `analyze` call: the match list was
non-empty, the score cleared the floor, and the result's fields are the
pipeline's values. -/
theorem analyze_some_shape (d : Detector) (text : String) (r : DetectionResult)
    (h : d.analyze text = some r) :
    ∃ m0 rest,
      find_all_matches text = m0 :: rest ∧
        ¬ scoreOf d text (m0 :: rest) < 0.1 ∧
        r = { confidence := round3 (scoreOf d text (m0 :: rest))
              «matches» := m0 :: rest
              matched_text := (maxByWeight m0 rest).matched_text
              context := extract_context text (maxByWeight m0 rest).start
                (maxByWeight m0 rest).«end» 300
              pattern_names := dedupNames (m0 :: rest) } := by
  unfold Detector.analyze at h
  cases hm : find_all_matches text with
  | nil => rw [hm] at h; exact absurd h (by simp)
  | cons m0 rest =>
    rw [hm] at h
    refine ⟨m0, rest, rfl, ?_⟩
    have h2 : (if scoreOf d text (m0 :: rest) < 0.1 then none else
        some { confidence := round3 (scoreOf d text (m0 :: rest))
               «matches» := m0 :: rest
               matched_text := (maxByWeight m0 rest).matched_text
               context := extract_context text (maxByWeight m0 rest).start
                 (maxByWeight m0 rest).«end» 300
               pattern_names := dedupNames (m0 :: rest) }) = some r := h
    by_cases hf : scoreOf d text (m0 :: rest) < 0.1
    · rw [if_pos hf] at h2; exact absurd h2 (by simp)
    · rw [if_neg hf] at h2
      exact ⟨hf, (Option.some_injective _ h2).symm⟩

/-- C3: a returned result's confidence always lies in `[0, 1]`:
the pipeline clamps the combined score into that interval before
rounding, and rounding to 3 decimals is monotone with fixed points at
the endpoints. -/
theorem claim3_confidence_range (d : Detector) (text : String) (r : DetectionResult)
    (h : d.analyze text = some r) : 0 ≤ r.confidence ∧ r.confidence ≤ 1 := by
  obtain ⟨m0, rest, _, _, hr⟩ := analyze_some_shape d text r h
  subst hr
  constructor
  · calc (0 : ℚ) = round3 0 := round3_zero.symm
      _ ≤ round3 (scoreOf d text (m0 :: rest)) := round3_mono (scoreOf_nonneg d text _)
  · calc round3 (scoreOf d text (m0 :: rest)) ≤ round3 1 :=
        round3_mono (scoreOf_le_one d text _)
      _ = 1 := round3_one

/-- C3 witness: the scenario-1 text produces a concrete result whose
confidence the theorem places in `[0, 1]`. -/
theorem claim3_witness : 0 ≤ resS1.confidence ∧ resS1.confidence ≤ 1 :=
  claim3_confidence_range dNone s1Text resS1 analyze_s1

/-- `max(list, key=weight)` returns the first element of maximal key:
everything before it in the list is strictly lighter, nothing anywhere
is heavier. -/
theorem maxByWeight_first :
    ∀ (l : List PatternMatch) (b : PatternMatch),
      ∃ pre post,
        b :: l = pre ++ maxByWeight b l :: post ∧
          (∀ m ∈ pre, m.weight < (maxByWeight b l).weight) ∧
          ∀ m ∈ b :: l, m.weight ≤ (maxByWeight b l).weight := by
  intro l
  induction l with
  | nil =>
    intro b
    exact ⟨[], [], rfl, by simp, by simp [maxByWeight]⟩
  | cons m t ih =>
    intro b
    by_cases hbm : b.weight < m.weight
    · have hum : maxByWeight b (m :: t) = maxByWeight m t := by
        show maxByWeight (if b.weight < m.weight then m else b) t = maxByWeight m t
        rw [if_pos hbm]
      obtain ⟨pre, post, heq, hlt, hle⟩ := ih m
      rw [hum]
      refine ⟨b :: pre, post, by rw [List.cons_append, ← heq], ?_, ?_⟩
      · intro x hx
        rcases List.mem_cons.mp hx with hxb | hxp
        · subst hxb
          exact lt_of_lt_of_le hbm (hle m (List.mem_cons_self m t))
        · exact hlt x hxp
      · intro x hx
        rcases List.mem_cons.mp hx with hxb | hxmt
        · subst hxb
          exact le_of_lt (lt_of_lt_of_le hbm (hle m (List.mem_cons_self m t)))
        · exact hle x hxmt
    · have hum : maxByWeight b (m :: t) = maxByWeight b t := by
        show maxByWeight (if b.weight < m.weight then m else b) t = maxByWeight b t
        rw [if_neg hbm]
      obtain ⟨pre, post, heq, hlt, hle⟩ := ih b
      rw [hum]
      cases pre with
      | nil =>
        simp only [List.nil_append] at heq
        injection heq with hb1 ht1
        refine ⟨[], m :: t, ?_, ?_, ?_⟩
        · simp only [List.nil_append]
          rw [← hb1]
        · intro x hx
          exact absurd hx (List.not_mem_nil x)
        · intro x hx
          rcases List.mem_cons.mp hx with hxb | hxmt
          · subst hxb; rw [← hb1]
          · rcases List.mem_cons.mp hxmt with hxm | hxt
            · subst hxm; rw [← hb1]; exact le_of_not_lt hbm
            · exact hle x (List.mem_cons_of_mem b hxt)
      | cons p pre2 =>
        rw [List.cons_append] at heq
        injection heq with hpb ht
        have hbB : b.weight < (maxByWeight b t).weight := by
          have := hlt p (List.mem_cons_self p pre2)
          rw [← hpb] at this
          exact this
        refine ⟨b :: m :: pre2, post, ?_, ?_, ?_⟩
        · conv_lhs => rw [ht]
          simp
        · intro x hx
          rcases List.mem_cons.mp hx with hxb | hx2
          · subst hxb; exact hbB
          · rcases List.mem_cons.mp hx2 with hxm | hxp2
            · subst hxm; exact lt_of_le_of_lt (le_of_not_lt hbm) hbB
            · exact hlt x (List.mem_cons_of_mem p hxp2)
        · intro x hx
          rcases List.mem_cons.mp hx with hxb | hx2
          · subst hxb; exact le_of_lt hbB
          · rcases List.mem_cons.mp hx2 with hxm | hxt
            · subst hxm; exact le_trans (le_of_not_lt hbm) (le_of_lt hbB)
            · exact hle x (List.mem_cons_of_mem b hxt)

/-- C4: every returned result's `matched_text` comes from the single
highest-weight match, ties resolved in favour of the first-encountered
match; `analyze` being a function of the input makes the selection
deterministic for identical input. -/
theorem claim4_best_match (d : Detector) (text : String) (r : DetectionResult)
    (h : d.analyze text = some r) :
    ∃ pre best post,
      find_all_matches text = pre ++ best :: post ∧
        r.matched_text = best.matched_text ∧
        (∀ m ∈ pre, m.weight < best.weight) ∧
        ∀ m ∈ find_all_matches text, m.weight ≤ best.weight := by
  obtain ⟨m0, rest, hm, _, hr⟩ := analyze_some_shape d text r h
  obtain ⟨pre, post, heq, hlt, hle⟩ := maxByWeight_first rest m0
  refine ⟨pre, maxByWeight m0 rest, post, ?_, ?_, hlt, ?_⟩
  · rw [hm, heq]
  · subst hr; rfl
  · intro m hmem
    exact hle m (by rw [hm] at hmem; exact hmem)

/-- C4 witness: on a concrete text the first-declared, heaviest match
(`hidden_reward`) supplies `matched_text`. -/
theorem claim4_witness :
    ∃ pre best post,
      find_all_matches bestText = pre ++ best :: post ∧
        resC4.matched_text = best.matched_text ∧
        (∀ m ∈ pre, m.weight < best.weight) ∧
        ∀ m ∈ find_all_matches bestText, m.weight ≤ best.weight :=
  claim4_best_match dNone bestText resC4 analyze_best

theorem score_context_nonneg (nlp : Option (String → NLPDoc)) (text : String)
    (ms : List PatternMatch) : 0 ≤ score_context nlp text ms := by
  cases nlp with
  | none => norm_num [score_context]
  | some f =>
    by_cases hms : ms.isEmpty
    · simp only [score_context, if_pos hms]
      norm_num
    · simp only [score_context, if_neg hms]
      have h01 : (0 : ℚ) ≤ 0.1 := by norm_num
      have h015 : (0 : ℚ) ≤ 0.15 := by norm_num
      refine le_min ?_ (by norm_num)
      refine le_trans ?_ (foldl_le_of_step _ ?_ _ _)
      · refine le_trans ?_ (foldl_le_of_step _ ?_ _ _)
        · split <;> norm_num
        · intro a x
          cases hfind : List.find? _ (f ⟨text.data.take 100000⟩).sents with
          | none => simp [hfind]
          | some sent =>
            simp only [hfind]
            split <;> split
            · exact le_trans (le_add_of_nonneg_right (by norm_num))
                (le_add_of_nonneg_right (by norm_num))
            · exact le_add_of_nonneg_right (by norm_num)
            · exact le_add_of_nonneg_right (by norm_num)
            · exact le_rfl
      · intro a x
        split
        · split
          · exact le_add_of_nonneg_right (by norm_num)
          · exact le_rfl
        · exact le_rfl

theorem score_context_le_cap (nlp : Option (String → NLPDoc)) (text : String)
    (ms : List PatternMatch) : score_context nlp text ms ≤ 0.4 := by
  cases nlp with
  | none => norm_num [score_context]
  | some f =>
    by_cases hms : ms.isEmpty
    · simp only [score_context, if_pos hms]
      norm_num
    · simp only [score_context, if_neg hms]
      exact min_le_right _ _

/-- C6: `score_context` returns exactly 0 when the capability handle is
absent or the match list is empty, and its value is always within
`[0, 0.4]`: every accumulation step only adds non-negative bonuses, and
the sum is clamped at 0.4. -/
theorem claim6_score_context_contract :
    (∀ (text : String) (ms : List PatternMatch), score_context none text ms = 0) ∧
      (∀ (nlp : Option (String → NLPDoc)) (text : String), score_context nlp text [] = 0) ∧
      ∀ (nlp : Option (String → NLPDoc)) (text : String) (ms : List PatternMatch),
        0 ≤ score_context nlp text ms ∧ score_context nlp text ms ≤ 0.4 := by
  refine ⟨fun _ _ => rfl, ?_, ?_⟩
  · intro nlp text
    cases nlp with
    | none => rfl
    | some f => rfl
  · intro nlp text ms
    exact ⟨score_context_nonneg nlp text ms, score_context_le_cap nlp text ms⟩

theorem claim5_counterexample :
    (0 < 4 - 2 ∧
      findSub ['.', ' ']
        (pyStrip ((("ab. cdef" : String).data.drop (4 - 2)).take
          (min ("ab. cdef" : String).data.length (5 + 2) - (4 - 2)))) = some 0) ∧
      extract_context "ab. cdef" 4 5 2 = ". cde" ∧
      extract_context "ab. cdef" 4 5 2 ≠
        ⟨(pyStrip ((("ab. cdef" : String).data.drop (4 - 2)).take
          (min ("ab. cdef" : String).data.length (5 + 2) - (4 - 2)))).drop (0 + 2)⟩ := by
  refine ⟨⟨by decide, by decide⟩, by decide, by decide⟩

/-- C5 (amended): the excerpt is the whitespace-stripped window slice;
when the excerpt was left-truncated (`ctx_start > 0`) and the first
occurrence of ". " in it sits at a strictly positive index below 100,
everything up to and including that occurrence is trimmed — the code's
guard is `0 < index < 100`, so a ". " at index 0 is left in place; in
every other case the excerpt is returned untrimmed. -/
theorem claim5_amended (text : String) (s e w : Nat) :
    (∀ i, 0 < s - w →
        findSub ['.', ' ']
          (pyStrip ((text.data.drop (s - w)).take
            (min text.data.length (e + w) - (s - w)))) = some i →
        0 < i → i < 100 →
        extract_context text s e w =
          ⟨(pyStrip ((text.data.drop (s - w)).take
              (min text.data.length (e + w) - (s - w)))).drop (i + 2)⟩) ∧
      (¬ 0 < s - w →
        extract_context text s e w =
          ⟨pyStrip ((text.data.drop (s - w)).take
            (min text.data.length (e + w) - (s - w)))⟩) ∧
      (∀ i, 0 < s - w →
        findSub ['.', ' ']
          (pyStrip ((text.data.drop (s - w)).take
            (min text.data.length (e + w) - (s - w)))) = some i →
        ¬ (0 < i ∧ i < 100) →
        extract_context text s e w =
          ⟨pyStrip ((text.data.drop (s - w)).take
            (min text.data.length (e + w) - (s - w)))⟩) ∧
      (0 < s - w →
        findSub ['.', ' ']
          (pyStrip ((text.data.drop (s - w)).take
            (min text.data.length (e + w) - (s - w)))) = none →
        extract_context text s e w =
          ⟨pyStrip ((text.data.drop (s - w)).take
            (min text.data.length (e + w) - (s - w)))⟩) := by
  refine ⟨?_, ?_, ?_, ?_⟩
  · intro i hcs hfind h0 h100
    simp only [extract_context]
    rw [if_pos hcs, hfind]
    exact if_pos ⟨h0, h100⟩
  · intro hcs
    simp only [extract_context]
    rw [if_neg hcs]
  · intro i hcs hfind hnot
    simp only [extract_context]
    rw [if_pos hcs, hfind]
    exact if_neg hnot
  · intro hcs hfind
    simp only [extract_context]
    rw [if_pos hcs, hfind]

/-- C5 witness: a left-truncated excerpt whose first ". " sits at index
1 is trimmed past it. -/
theorem claim5_witness :
    (0 < 9 - 7 ∧
      findSub ['.', ' ']
        (pyStrip ((trimText.data.drop (9 - 7)).take
          (min trimText.data.length (15 + 7) - (9 - 7)))) = some 1) ∧
      extract_context trimText 9 15 7 =
        ⟨(pyStrip ((trimText.data.drop (9 - 7)).take
          (min trimText.data.length (15 + 7) - (9 - 7)))).drop (1 + 2)⟩ :=
  ⟨⟨by decide, by decide⟩,
   (claim5_amended trimText 9 15 7).1 1 (by decide) (by decide) (by decide) (by decide)⟩

/-- C8: on the scenario-1 text the analyzer always returns a result —
whatever the linguistic capability provides, since the bonus is
non-negative — the result's matches include `read_this_far`, and the
confidence is at least 0.3 (the base score alone is 0.9). -/
theorem claim8_scenario1 :
    ∀ nlp : Option (String → NLPDoc),
      ∃ r, (Detector.mk nlp).analyze s1Text = some r ∧
        (∃ m ∈ r.«matches», m.pattern_name = "read_this_far") ∧
        (0.3 : ℚ) ≤ r.confidence := by
  intro nlp
  have hb : (0 : ℚ) ≤ score_context nlp s1Text [mRead, mPrizeS1] :=
    score_context_nonneg nlp s1Text [mRead, mPrizeS1]
  have hge : (0.9 : ℚ) ≤ scoreOf ⟨nlp⟩ s1Text [mRead, mPrizeS1] := by
    show (0.9 : ℚ) ≤ max 0 (min 1 (min ((0 : ℚ) + 0.8 + 0.2) 0.9 + 0 +
      score_context nlp s1Text [mRead, mPrizeS1]))
    have h1 : min ((0 : ℚ) + 0.8 + 0.2) 0.9 = 0.9 := by norm_num [min_def]
    rw [h1]
    refine le_trans (le_min (by norm_num) (by linarith)) (le_max_right 0 _)
  have hnl : ¬ scoreOf ⟨nlp⟩ s1Text [mRead, mPrizeS1] < 0.1 :=
    not_lt.mpr (le_trans (by norm_num) hge)
  refine ⟨{ confidence := round3 (scoreOf ⟨nlp⟩ s1Text [mRead, mPrizeS1])
            «matches» := [mRead, mPrizeS1]
            matched_text := (maxByWeight mRead [mPrizeS1]).matched_text
            context := extract_context s1Text (maxByWeight mRead [mPrizeS1]).start
              (maxByWeight mRead [mPrizeS1]).«end» 300
            pattern_names := dedupNames [mRead, mPrizeS1] }, ?_, ?_, ?_⟩
  · unfold Detector.analyze
    rw [show find_all_matches s1Text = [mRead, mPrizeS1] from rfl]
    show (if scoreOf (Detector.mk nlp) s1Text [mRead, mPrizeS1] < 0.1 then none else
      some ({ confidence := round3 (scoreOf (Detector.mk nlp) s1Text [mRead, mPrizeS1])
              «matches» := [mRead, mPrizeS1]
              matched_text := (maxByWeight mRead [mPrizeS1]).matched_text
              context := extract_context s1Text (maxByWeight mRead [mPrizeS1]).start
                (maxByWeight mRead [mPrizeS1]).«end» 300
              pattern_names := dedupNames [mRead, mPrizeS1] } : DetectionResult)) =
      some { confidence := round3 (scoreOf ⟨nlp⟩ s1Text [mRead, mPrizeS1])
             «matches» := [mRead, mPrizeS1]
             matched_text := (maxByWeight mRead [mPrizeS1]).matched_text
             context := extract_context s1Text (maxByWeight mRead [mPrizeS1]).start
               (maxByWeight mRead [mPrizeS1]).«end» 300
             pattern_names := dedupNames [mRead, mPrizeS1] }
    rw [if_neg hnl]
  · exact ⟨mRead, List.mem_cons_self _ _, rfl⟩
  · show (0.3 : ℚ) ≤ round3 (scoreOf ⟨nlp⟩ s1Text [mRead, mPrizeS1])
    have h09 : round3 (0.9 : ℚ) = 0.9 := round3_eval 0.9 900 (by norm_num) 0.9 (by norm_num)
    calc (0.3 : ℚ) ≤ 0.9 := by norm_num
      _ = round3 0.9 := h09.symm
      _ ≤ round3 (scoreOf ⟨nlp⟩ s1Text [mRead, mPrizeS1]) := round3_mono hge

/-! ### Span invariants of the match enumerator -/

theorem reSearchHere_le (fuel : Nat) (r : Re) (prev : Option Char) (s : List Char)
    (n : Nat) (h : reSearchHere fuel r prev s = some n) : n ≤ s.length := by
  unfold reSearchHere at h
  cases hm : reM fuel r prev s (fun _ t => some t) with
  | none => rw [hm] at h; cases h
  | some t =>
    rw [hm] at h
    injection h with h2
    rw [← h2]
    exact Nat.sub_le _ _

theorem findIterAux_bounds (r : Re) (sfuel : Nat) :
    ∀ (fuel : Nat) (prev : Option Char) (pos : Nat) (rest : List Char),
      ∀ p ∈ findIterAux r sfuel fuel prev pos rest,
        pos ≤ p.1 ∧ p.1 ≤ p.2 ∧ p.2 ≤ pos + rest.length := by
  intro fuel
  induction fuel with
  | zero => intro prev pos rest p hp; simp [findIterAux] at hp
  | succ f ih =>
    intro prev pos rest p hp
    simp only [findIterAux] at hp
    cases hs : reSearchHere sfuel r prev rest with
    | some n =>
      simp only [hs] at hp
      by_cases hn : n = 0
      · simp only [if_pos hn] at hp
        rcases List.mem_cons.mp hp with hph | hpt
        · subst hph
          exact ⟨le_refl _, le_refl _, Nat.le_add_right _ _⟩
        · cases rest with
          | nil => simp at hpt
          | cons c tl =>
            obtain ⟨h1, h2, h3⟩ := ih (some c) (pos + 1) tl p hpt
            refine ⟨by omega, h2, ?_⟩
            simp only [List.length_cons]
            omega
      · simp only [if_neg hn] at hp
        have hnle : n ≤ rest.length := reSearchHere_le sfuel r prev rest n hs
        rcases List.mem_cons.mp hp with hph | hpt
        · subst hph
          exact ⟨le_refl _, by omega, by omega⟩
        · obtain ⟨h1, h2, h3⟩ := ih (rest.take n).getLast? (pos + n) (rest.drop n) p hpt
          rw [List.length_drop] at h3
          exact ⟨by omega, h2, by omega⟩
    | none =>
      simp only [hs] at hp
      cases rest with
      | nil => simp at hp
      | cons c tl =>
        obtain ⟨h1, h2, h3⟩ := ih (some c) (pos + 1) tl p hp
        refine ⟨by omega, h2, ?_⟩
        simp only [List.length_cons]
        omega

theorem findIterAux_sorted (r : Re) (sfuel : Nat) :
    ∀ (fuel : Nat) (prev : Option Char) (pos : Nat) (rest : List Char),
      (findIterAux r sfuel fuel prev pos rest).Pairwise (fun a b => a.1 < b.1) := by
  intro fuel
  induction fuel with
  | zero =>
    intro prev pos rest
    simp only [findIterAux]
    exact List.Pairwise.nil
  | succ f ih =>
    intro prev pos rest
    simp only [findIterAux]
    cases hs : reSearchHere sfuel r prev rest with
    | some n =>
      by_cases hn : n = 0
      · simp only [if_pos hn]
        cases rest with
        | nil => simp
        | cons c tl =>
          rw [List.pairwise_cons]
          refine ⟨?_, ih (some c) (pos + 1) tl⟩
          intro b hb
          have h1 := (findIterAux_bounds r sfuel f (some c) (pos + 1) tl b hb).1
          show pos < b.1
          omega
      · simp only [if_neg hn]
        rw [List.pairwise_cons]
        refine ⟨?_, ih (rest.take n).getLast? (pos + n) (rest.drop n)⟩
        intro b hb
        have h1 := (findIterAux_bounds r sfuel f (rest.take n).getLast? (pos + n)
          (rest.drop n) b hb).1
        show pos < b.1
        omega
    | none =>
      cases rest with
      | nil => exact List.Pairwise.nil
      | cons c tl => exact ih (some c) (pos + 1) tl

theorem ruleMatches_fields (rule : String × String × Re × ℚ) (text : String) :
    ∀ m ∈ ruleMatches rule text,
      m.matched_text = sliceStr text m.start m.«end» ∧
        m.start ≤ m.«end» ∧ m.«end» ≤ text.length := by
  intro m hm
  unfold ruleMatches at hm
  rw [List.mem_map] at hm
  obtain ⟨sp, hsp, heq⟩ := hm
  have hb := findIterAux_bounds rule.2.2.1 (reSize rule.2.2.1 + text.data.length + 1)
    (text.data.length + 1) none 0 text.data sp hsp
  rw [← heq]
  refine ⟨rfl, hb.2.1, ?_⟩
  show sp.2 ≤ text.length
  have h3 := hb.2.2
  simpa using h3

/-- C10: every match reports the exact slice of the input as its text
with well-formed offsets, and the enumeration is grouped by rule in
declaration order with document order inside each rule — so the overall
sequence need not be document-ordered, as the concrete text shows. -/
theorem claim10_match_invariants (text : String) :
    (∀ m ∈ find_all_matches text,
        m.matched_text = sliceStr text m.start m.«end» ∧
          m.start ≤ m.«end» ∧ m.«end» ≤ text.length) ∧
      (find_all_matches text =
        PRIZE_PATTERNS.flatMap fun rule => ruleMatches rule text) ∧
      (∀ rule ∈ PRIZE_PATTERNS,
          (ruleMatches rule text).Pairwise fun a b => a.start < b.start) ∧
      ¬ (find_all_matches ordText).Pairwise fun a b => a.start ≤ b.start := by
  refine ⟨?_, rfl, ?_, ?_⟩
  · intro m hm
    rw [find_all_matches, List.mem_flatMap] at hm
    obtain ⟨rule, _, hm2⟩ := hm
    exact ruleMatches_fields rule text m hm2
  · intro rule _
    unfold ruleMatches findIter
    rw [List.pairwise_map]
    exact (findIterAux_sorted rule.2.2.1 _ _ none 0 text.data).imp (fun h => h)
  · rw [show find_all_matches ordText = [mOrdRead, mOrdJack] from rfl]
    intro hP
    exact absurd ((List.pairwise_cons.mp hP).1 mOrdJack (List.mem_cons_self _ _))
      (by decide)

/-- C10 witness: the `hidden_reward` match on a concrete text carries
the exact matched slice and in-bounds offsets. -/
theorem claim10_witness :
    mHidden.matched_text = sliceStr bestText mHidden.start mHidden.«end» ∧
      mHidden.start ≤ mHidden.«end» ∧ mHidden.«end» ≤ bestText.length :=
  (claim10_match_invariants bestText).1 mHidden
    (by rw [show find_all_matches bestText = [mHidden, mPrizeC4] from rfl]
        exact List.mem_cons_self _ _)

end TOS
